import Mathlib

/- Verification of the table-relationship graph, join-path resolution,
   neighborhood index and enum merge of oracle-ddl-rag-mcp
   (src/oracle_ddl_rag: graph/table_graph.py, extractors/enum_extractor.py,
   tools/find_path.py). Shallow embedding: the networkx graph becomes an
   edge list, the shortest-path query becomes a fuel-bounded breadth-first
   search (observationally equal to the unbounded search followed by the
   max-hops check, since any shortest path within max_hops is found within
   max_hops levels and everything longer maps to the same failure value),
   and Python dicts become association lists in insertion order. -/

/-- Case normalization applied to table names: Python str.upper on the
ASCII identifiers used as table names, written over the character list so
that it evaluates by kernel reduction. -/
def upperStr (s : String) : String := ⟨s.data.map Char.toUpper⟩

/-- Edge attributes stored by TableGraph.add_relationship: the ordered
column lists, the optional constraint name, and which endpoint is the
semantic parent and which the child. -/
structure EdgeData where
  parent_columns : List String
  child_columns : List String
  constraint_name : Option String
  parent : String
  child : String
deriving DecidableEq

/-- One undirected edge of the networkx graph: the two endpoints in
insertion orientation plus the attribute record. -/
structure GEdge where
  u : String
  v : String
  dat : EdgeData
deriving DecidableEq

/-- The graph held by TableGraph. Nodes are exactly the edge endpoints,
because add_edge is the only operation that introduces nodes. -/
structure TableGraph where
  edges : List GEdge
deriving DecidableEq

/-- Whether edge e connects the unordered pair x, y. -/
def edgeMatch (x y : String) (e : GEdge) : Bool :=
  (e.u == x && e.v == y) || (e.u == y && e.v == x)

/-- TableGraph.add_relationship: upper-case both table names and store the
edge attributes; networkx add_edge overwrites the attributes when the
unordered pair is already present (keeping the stored endpoint
orientation) and appends a new edge otherwise. No validation of the
column lists is performed. -/
def add_relationship (g : TableGraph) (parent_table child_table : String)
    (parent_columns child_columns : List String)
    (constraint_name : Option String) : TableGraph :=
  let p := upperStr parent_table
  let c := upperStr child_table
  let dat : EdgeData := ⟨parent_columns, child_columns, constraint_name, p, c⟩
  if g.edges.any (edgeMatch p c) then
    ⟨g.edges.map (fun e => if edgeMatch p c e then { e with dat := dat } else e)⟩
  else
    ⟨g.edges ++ [⟨p, c, dat⟩]⟩

/-- A relationship fact as supplied by the cache. -/
structure RelationshipFact where
  parent_table : String
  child_table : String
  parent_columns : List String
  child_columns : List String
  constraint_name : Option String
deriving DecidableEq

/-- TableGraph.build_from_relationships: apply add_relationship to each
fact in input order. -/
def build_from_relationships (g : TableGraph) (rels : List RelationshipFact) :
    TableGraph :=
  rels.foldl (fun g r =>
    add_relationship g r.parent_table r.child_table r.parent_columns
      r.child_columns r.constraint_name) g

/-- Node membership test, the Python `name in self.graph`. -/
def mem_graph (g : TableGraph) (t : String) : Bool :=
  g.edges.any (fun e => e.u == t || e.v == t)

/-- The neighbors of a node: the opposite endpoint of every incident edge. -/
def neighbors (g : TableGraph) (x : String) : List String :=
  g.edges.filterMap (fun e =>
    if e.u == x then some e.v else if e.v == x then some e.u else none)

/-- Attribute lookup for the edge joining an unordered pair, the Python
`self.graph.edges[a, b]`. -/
def getEdgeData (g : TableGraph) (x y : String) : Option EdgeData :=
  (g.edges.find? (edgeMatch x y)).map GEdge.dat

/-- A single step of a join path. -/
structure JoinStep where
  step_number : Nat
  from_table : String
  to_table : String
  join_condition : String
  constraint_name : Option String
deriving DecidableEq

/-- A complete join path between two tables. -/
structure JoinPath where
  source : String
  target : String
  steps : List JoinStep
  total_hops : Nat
deriving DecidableEq

/-- TableGraph._format_join_condition: one equality per positional pair of
the stored parent/child column lists, rendered with the traversal's
from-side first; when the pairing is empty, the fabricated fallback
condition on a literal column named id. -/
def format_join_condition (from_table to_table : String) (dat : EdgeData) :
    String :=
  let conditions := (dat.parent_columns.zip dat.child_columns).map (fun pc =>
    if from_table == dat.parent then
      dat.parent ++ "." ++ pc.1 ++ " = " ++ dat.child ++ "." ++ pc.2
    else
      dat.child ++ "." ++ pc.2 ++ " = " ++ dat.parent ++ "." ++ pc.1)
  if conditions.isEmpty then
    from_table ++ ".id = " ++ to_table ++ ".id"
  else
    String.intercalate " AND " conditions

/-- The join-step list built by find_shortest_path from the node list of
the discovered path; i is the number of steps already emitted. The
attribute lookup cannot fail on a path whose consecutive nodes are
adjacent, which the search guarantees; the default record mirrors the
dict .get defaults and is never reached on such paths. -/
def mkSteps (g : TableGraph) : Nat → List String → List JoinStep
  | _, [] => []
  | _, [_] => []
  | i, x :: y :: rest =>
    let dat := (getEdgeData g x y).getD ⟨[], [], none, "", ""⟩
    ⟨i + 1, x, y, format_join_condition x y dat, dat.constraint_name⟩ ::
      mkSteps g (i + 1) (y :: rest)

/-- One expansion of a breadth-first frontier entry: a frontier entry is a
discovered path in reverse (head is the newest node), and it extends by
every unvisited neighbor of its head. -/
def bfsExpand (g : TableGraph) (visited : List String) (p : List String) :
    List (List String) :=
  match p with
  | [] => []
  | x :: _ =>
    ((neighbors g x).filter (fun v => !visited.contains v)).map (fun v => v :: p)

/-- The heads of the frontier entries. -/
def frontierHeads (frontier : List (List String)) : List String :=
  frontier.filterMap List.head?

/-- Level-synchronous breadth-first search for target, returning the first
discovered path (in forward order) if the target is reached within the
given number of levels. -/
def bfsLoop (g : TableGraph) (target : String) :
    Nat → List String → List (List String) → Option (List String)
  | 0, _, _ => none
  | fuel + 1, visited, frontier =>
    match frontier.find? (fun p => p.head? == some target) with
    | some p => some p.reverse
    | none =>
      let next := frontier.flatMap (bfsExpand g visited)
      bfsLoop g target fuel (visited ++ frontierHeads next) next

/-- TableGraph.find_shortest_path: None when either table is absent, when
no path exists, or when the shortest path exceeds max_hops; otherwise the
JoinPath assembled from a shortest node sequence. -/
def find_shortest_path (g : TableGraph) (source target : String)
    (max_hops : Nat) : Option JoinPath :=
  let s := upperStr source
  let t := upperStr target
  if mem_graph g s then
    if mem_graph g t then
      match bfsLoop g t (max_hops + 1) [s] [[s]] with
      | none => none
      | some nodes =>
        let steps := mkSteps g 0 nodes
        some ⟨s, t, steps, steps.length⟩
    else none
  else none

/-- Layered single-source breadth-first traversal recording each node with
the level at which it is first reached, up to the cutoff: the embedding of
networkx single_source_shortest_path_length with cutoff. -/
def bfsLayers (g : TableGraph) (cutoff : Nat) :
    Nat → List String → List String → Nat → List (String × Nat)
  | 0, _, _, _ => []
  | fuel + 1, visited, frontier, d =>
    let here := frontier.map (fun v => (v, d))
    if d = cutoff then here
    else
      let next := ((frontier.flatMap (neighbors g)).filter
        (fun v => !visited.contains v)).dedup
      here ++ bfsLayers g cutoff fuel (visited ++ next) next (d + 1)

/-- Strict lexicographic comparison of table names by character code
point, written over the character lists so that it evaluates by kernel
reduction. -/
def strLT (a b : String) : Bool := decide (a.data < b.data)

/-- Lexicographic name order, the total order Python uses on the
tie-breaking name component. -/
def strLE (a b : String) : Bool := !(strLT b a)

/-- The sort order of get_related_tables: the Python key (distance, name),
ascending, names compared lexically. -/
def relLE (x y : String × Nat) : Bool :=
  (decide (x.2 < y.2)) || ((decide (x.2 = y.2)) && strLE x.1 y.1)

/-- Ordered insertion for the (distance, name) order. -/
def insertLE (x : String × Nat) : List (String × Nat) → List (String × Nat)
  | [] => [x]
  | y :: t => if relLE x y then x :: y :: t else y :: insertLE x t

/-- The sort of get_related_tables, written as a structurally recursive
insertion sort: the (distance, name) key totally orders the entries, so
this produces the same list as any comparison sort, and it evaluates by
kernel reduction. -/
def sortLE : List (String × Nat) → List (String × Nat)
  | [] => []
  | x :: t => insertLE x (sortLE t)

/-- TableGraph.get_related_tables: the empty list when the table is absent;
otherwise every other table within max_hops with its distance, sorted by
(distance, name). -/
def get_related_tables (g : TableGraph) (table_name : String)
    (max_hops : Nat) : List (String × Nat) :=
  let t := upperStr table_name
  if mem_graph g t then
    let lengths := bfsLayers g max_hops (max_hops + 1) [t] [t] 0
    let related := lengths.filter (fun p => !(p.1 == t))
    sortLE related
  else []

/-- A single enum value with an optional meaning. -/
structure EnumValue where
  code : String
  meaning : Option String
deriving DecidableEq

/-- Enum values for one column, with provenance. -/
structure EnumInfo where
  table_name : String
  column_name : String
  values : List EnumValue
  source : String
deriving DecidableEq

/-- The dictionary key used by EnumExtractor.extract_all. -/
def enumKey (e : EnumInfo) : String := e.table_name ++ "." ++ e.column_name

/-- Python dict assignment on an association list: replace the value at an
existing key in place, append a new key at the end. -/
def dictSet (d : List (String × EnumInfo)) (k : String) (v : EnumInfo) :
    List (String × EnumInfo) :=
  if d.any (fun p => p.1 == k) then
    d.map (fun p => if p.1 == k then (p.1, v) else p)
  else d ++ [(k, v)]

/-- The manual_meanings dict of extract_all for one manual entry: the
meaning the entry supplies for a code, where a later duplicate code in the
entry wins (dict-comprehension semantics). -/
def manualMeaning (m : EnumInfo) (c : String) : Option (Option String) :=
  ((m.values.map (fun v => (v.code, v.meaning))).reverse).lookup c

/-- The merge body of extract_all when a domain already exists for the
key: each stored value whose code the manual entry mentions gets that
meaning; codes are never added or removed. -/
def annotateValues (existing m : EnumInfo) : EnumInfo :=
  { existing with values := existing.values.map (fun v =>
      match manualMeaning m v.code with
      | some mn => { v with meaning := mn }
      | none => v) }

/-- One iteration of the manual-override loop of extract_all. -/
def mergeManual (enums : List (String × EnumInfo)) (m : EnumInfo) :
    List (String × EnumInfo) :=
  match enums.lookup (enumKey m) with
  | some existing => dictSet enums (enumKey m) (annotateValues existing m)
  | none => enums ++ [(enumKey m, m)]

/-- The dictionary state after the derived (CHECK-constraint) phase of
extract_all: each derived domain stored at its key, later same-key
entries overwriting. -/
def derivedDict (derived : List EnumInfo) : List (String × EnumInfo) :=
  derived.foldl (fun d e => dictSet d (enumKey e) e) []

/-- The dictionary state after both phases of extract_all. -/
def extract_allDict (derived manual : List EnumInfo) :
    List (String × EnumInfo) :=
  manual.foldl mergeManual (derivedDict derived)

/-- EnumExtractor.extract_all over the two fact streams: the derived
domains parsed from CHECK constraints and the manual overrides, in their
processing order. -/
def extract_all (derived manual : List EnumInfo) : List EnumInfo :=
  (extract_allDict derived manual).map Prod.snd

/-- The result dict shapes of the find_join_path tool. -/
inductive FindPathResult where
  | notFound (error : String)
  | noPath (message : String)
      (source_related_tables target_related_tables : List String)
  | found (source target : String) (total_hops : Nat) (steps : List JoinStep)
      (sql_example : String)
deriving DecidableEq

/-- The SQL example string assembled by find_join_path. -/
def sqlExample (source : String) (steps : List JoinStep) : String :=
  "SELECT *\nFROM " ++ upperStr source ++ "\n" ++
    String.intercalate "\n"
      (steps.map (fun st => "JOIN " ++ st.to_table ++ " ON " ++ st.join_condition))

/-- The find_join_path tool: existence is checked against the table cache
(not the graph), source first; a failed resolution returns the no-path
diagnostic with up to five related tables of each endpoint. -/
def find_join_path (cacheTables : List String) (g : TableGraph)
    (source_table target_table : String) (max_hops : Nat) : FindPathResult :=
  if !(cacheTables.contains (upperStr source_table)) then
    .notFound ("Table '" ++ source_table ++ "' not found.")
  else if !(cacheTables.contains (upperStr target_table)) then
    .notFound ("Table '" ++ target_table ++ "' not found.")
  else
    match find_shortest_path g source_table target_table max_hops with
    | none =>
      .noPath ("No join path found between '" ++ upperStr source_table ++
          "' and '" ++ upperStr target_table ++ "' within " ++
          toString max_hops ++ " hops.")
        (((get_related_tables g (upperStr source_table) 2).map Prod.fst).take 5)
        (((get_related_tables g (upperStr target_table) 2).map Prod.fst).take 5)
    | some path =>
      .found path.source path.target path.total_hops path.steps
        (sqlExample source_table path.steps)

/-- Specification-side adjacency: some stored edge connects the two names. -/
def adjacent (g : TableGraph) (x y : String) : Prop :=
  ∃ e ∈ g.edges, (e.u = x ∧ e.v = y) ∨ (e.u = y ∧ e.v = x)

/-- Specification-side walks: a walk of the given hop count between two
nodes along stored edges. -/
inductive Walk (g : TableGraph) : String → String → Nat → Prop
  | nil (s : String) : Walk g s s 0
  | cons {s u t : String} {n : Nat} (h : adjacent g s u) (w : Walk g u t n) :
      Walk g s t (n + 1)

/-- The hop count is the least among all walks between the two nodes. -/
def MinWalk (g : TableGraph) (s v : String) (k : Nat) : Prop :=
  Walk g s v k ∧ ∀ m, Walk g s v m → k ≤ m

/-- A frontier entry of the search: a discovered path listed newest-first,
anchored at the source. -/
inductive RevPath (g : TableGraph) (s : String) : List String → Prop
  | base : RevPath g s [s]
  | step {x y : String} {p : List String} (hp : RevPath g s (x :: p))
      (ha : adjacent g x y) : RevPath g s (y :: x :: p)

theorem walk_zero {g : TableGraph} {s v : String} (h : Walk g s v 0) : s = v := by
  cases h
  rfl

theorem Walk.snoc {g : TableGraph} {s u v : String} {n : Nat}
    (w : Walk g s u n) (h : adjacent g u v) : Walk g s v (n + 1) := by
  induction w with
  | nil s => exact Walk.cons h (Walk.nil v)
  | cons ha _ ih => exact Walk.cons ha (ih h)

theorem walk_succ_decomp {g : TableGraph} {v : String} :
    ∀ {n : Nat} {s : String}, Walk g s v (n + 1) →
      ∃ u, Walk g s u n ∧ adjacent g u v := by
  intro n
  induction n with
  | zero =>
    intro s h
    cases h with
    | cons ha hw => exact ⟨s, Walk.nil s, walk_zero hw ▸ ha⟩
  | succ m ih =>
    intro s h
    cases h with
    | cons ha hw =>
      obtain ⟨u, hu, hadj⟩ := ih hw
      exact ⟨u, Walk.cons ha hu, hadj⟩

theorem neighbors_adjacent {g : TableGraph} {x v : String} :
    v ∈ neighbors g x ↔ adjacent g x v := by
  unfold neighbors adjacent
  rw [List.mem_filterMap]
  constructor
  · rintro ⟨e, he, hfe⟩
    by_cases h1 : e.u = x
    · simp only [h1, beq_self_eq_true, if_true, Option.some.injEq] at hfe
      exact ⟨e, he, Or.inl ⟨h1, hfe⟩⟩
    · by_cases h2 : e.v = x
      · simp only [beq_iff_eq, h1, if_false, h2, if_true, Option.some.injEq] at hfe
        exact ⟨e, he, Or.inr ⟨hfe, h2⟩⟩
      · simp [beq_iff_eq, h1, h2] at hfe
  · rintro ⟨e, he, h | h⟩
    · refine ⟨e, he, ?_⟩
      rw [if_pos (by simp [h.1])]
      rw [h.2]
    · refine ⟨e, he, ?_⟩
      by_cases h1 : e.u = x
      · rw [if_pos (by simp [h1])]
        rw [h.2, ← h.1, h1]
      · rw [if_neg (by simp [h1]), if_pos (by simp [h.2]), h.1]

theorem exists_min_aux {P : Nat → Prop} :
    ∀ n, P n → ∃ d, P d ∧ ∀ m, m < d → ¬ P m := by
  intro n
  induction n using Nat.strong_induction_on with
  | _ n ih =>
    intro hn
    by_cases hx : ∃ m, m < n ∧ P m
    · obtain ⟨m, hm, hpm⟩ := hx
      exact ih m hm hpm
    · push_neg at hx
      exact ⟨n, hn, hx⟩

theorem exists_min {P : Nat → Prop} (h : ∃ n, P n) :
    ∃ d, P d ∧ ∀ m, m < d → ¬ P m := by
  obtain ⟨n, hn⟩ := h
  exact exists_min_aux n hn

theorem revpath_shape {g : TableGraph} {s : String} {p : List String}
    (h : RevPath g s p) : ∃ x q, p = x :: q := by
  cases h with
  | base => exact ⟨s, [], rfl⟩
  | step hp ha => exact ⟨_, _, rfl⟩

theorem revpath_getLast {g : TableGraph} {s : String} {p : List String}
    (h : RevPath g s p) : p.getLast? = some s := by
  induction h with
  | base => rfl
  | step hp ha ih => rw [List.getLast?_cons_cons]; exact ih

theorem revpath_walk {g : TableGraph} {s : String} {p : List String}
    (h : RevPath g s p) :
    ∀ {x : String} {q : List String}, p = x :: q → Walk g s x q.length := by
  induction h with
  | base =>
    intro x q he
    injection he with h1 h2
    subst h1
    subst h2
    exact Walk.nil s
  | step hp ha ih =>
    intro x q he
    injection he with h1 h2
    subst h1
    subst h2
    exact (ih rfl).snoc ha

theorem walk_revpath {g : TableGraph} {s : String} :
    ∀ {n : Nat} {x : String}, Walk g s x n →
      ∃ q, RevPath g s (x :: q) ∧ q.length = n := by
  intro n
  induction n with
  | zero =>
    intro x h
    have := walk_zero h
    subst this
    exact ⟨[], RevPath.base, rfl⟩
  | succ m ih =>
    intro x h
    obtain ⟨u, hu, hadj⟩ := walk_succ_decomp h
    obtain ⟨q, hq, hlen⟩ := ih hu
    exact ⟨u :: q, RevPath.step hq hadj, by simp [hlen]⟩

theorem head?_eq_some_shape {p : List String} {x : String}
    (h : p.head? = some x) : ∃ q, p = x :: q := by
  cases p with
  | nil => simp at h
  | cons a q =>
    simp only [List.head?_cons, Option.some.injEq] at h
    exact ⟨q, by rw [h]⟩

/-- The invariant of the level-synchronous search after k expansion
rounds: frontier entries are discovered paths of exactly k hops, the
visited list holds precisely the nodes within k hops, and the frontier
heads are precisely the nodes at shortest distance exactly k. -/
structure BfsInv (g : TableGraph) (s : String) (k : Nat)
    (visited : List String) (frontier : List (List String)) : Prop where
  path_ok : ∀ p ∈ frontier, RevPath g s p ∧ p.length = k + 1
  visited_iff : ∀ v, v ∈ visited ↔ ∃ m ≤ k, Walk g s v m
  frontier_iff : ∀ v, (∃ p ∈ frontier, p.head? = some v) ↔ MinWalk g s v k

theorem bfsInv_init (g : TableGraph) (s : String) : BfsInv g s 0 [s] [[s]] := by
  constructor
  · intro p hp
    simp only [List.mem_singleton] at hp
    subst hp
    exact ⟨RevPath.base, rfl⟩
  · intro v
    simp only [List.mem_singleton]
    constructor
    · intro hv
      exact ⟨0, Nat.le_refl 0, by rw [hv]; exact Walk.nil s⟩
    · rintro ⟨m, hm, hw⟩
      have hm0 : m = 0 := Nat.le_zero.mp hm
      subst hm0
      exact (walk_zero hw).symm
  · intro v
    constructor
    · rintro ⟨p, hp, hh⟩
      simp only [List.mem_singleton] at hp
      subst hp
      simp only [List.head?_cons, Option.some.injEq] at hh
      subst hh
      exact ⟨Walk.nil s, fun m _ => Nat.zero_le m⟩
    · rintro ⟨hw, _⟩
      have := walk_zero hw
      subst this
      exact ⟨[s], List.mem_singleton.mpr rfl, rfl⟩

theorem mem_bfs_next {g : TableGraph} {visited : List String}
    {frontier : List (List String)} {q : List String} :
    q ∈ frontier.flatMap (bfsExpand g visited) ↔
      ∃ x p, (x :: p) ∈ frontier ∧ ∃ v, adjacent g x v ∧ v ∉ visited ∧
        q = v :: x :: p := by
  rw [List.mem_flatMap]
  constructor
  · rintro ⟨p0, hp0, hq⟩
    cases p0 with
    | nil => simp [bfsExpand] at hq
    | cons x p =>
      unfold bfsExpand at hq
      rw [List.mem_map] at hq
      obtain ⟨v, hv, rfl⟩ := hq
      rw [List.mem_filter] at hv
      refine ⟨x, p, hp0, v, neighbors_adjacent.mp hv.1, ?_, rfl⟩
      simpa using hv.2
  · rintro ⟨x, p, hxp, v, hadj, hnv, rfl⟩
    refine ⟨x :: p, hxp, ?_⟩
    unfold bfsExpand
    rw [List.mem_map]
    exact ⟨v, List.mem_filter.mpr ⟨neighbors_adjacent.mpr hadj, by simpa using hnv⟩,
      rfl⟩

theorem mem_frontierHeads {frontier : List (List String)} {v : String} :
    v ∈ frontierHeads frontier ↔ ∃ p ∈ frontier, p.head? = some v := by
  unfold frontierHeads
  rw [List.mem_filterMap]

theorem bfsInv_step {g : TableGraph} {s : String} {k : Nat}
    {visited : List String} {frontier : List (List String)}
    (inv : BfsInv g s k visited frontier) :
    BfsInv g s (k + 1)
      (visited ++ frontierHeads (frontier.flatMap (bfsExpand g visited)))
      (frontier.flatMap (bfsExpand g visited)) := by
  have hfr : ∀ w, (∃ q ∈ frontier.flatMap (bfsExpand g visited), q.head? = some w) ↔
      MinWalk g s w (k + 1) := by
    intro w
    constructor
    · rintro ⟨q, hq, hh⟩
      obtain ⟨x, p, hxp, v, hadj, hnv, rfl⟩ := mem_bfs_next.mp hq
      simp only [List.head?_cons, Option.some.injEq] at hh
      subst hh
      have hmin : MinWalk g s x k :=
        (inv.frontier_iff x).mp ⟨x :: p, hxp, rfl⟩
      refine ⟨hmin.1.snoc hadj, ?_⟩
      intro m hm
      by_contra hlt
      push_neg at hlt
      have hmk : m ≤ k := Nat.lt_succ_iff.mp hlt
      exact hnv ((inv.visited_iff v).mpr ⟨m, hmk, hm⟩)
    · rintro ⟨hw, hmin⟩
      obtain ⟨u, hu, hadj⟩ := walk_succ_decomp hw
      have humin : MinWalk g s u k := by
        refine ⟨hu, ?_⟩
        intro m hm
        by_contra hlt
        push_neg at hlt
        have : Walk g s w (m + 1) := hm.snoc hadj
        have := hmin (m + 1) this
        omega
      obtain ⟨p, hp, hh⟩ := (inv.frontier_iff u).mpr humin
      obtain ⟨p0, rfl⟩ := head?_eq_some_shape hh
      have hnv : w ∉ visited := by
        intro hmem
        obtain ⟨m, hmk, hwm⟩ := (inv.visited_iff w).mp hmem
        have := hmin m hwm
        omega
      exact ⟨w :: u :: p0,
        mem_bfs_next.mpr ⟨u, p0, hp, w, hadj, hnv, rfl⟩, rfl⟩
  constructor
  · intro q hq
    obtain ⟨x, p, hxp, v, hadj, hnv, rfl⟩ := mem_bfs_next.mp hq
    obtain ⟨hrev, hlen⟩ := inv.path_ok (x :: p) hxp
    exact ⟨RevPath.step hrev hadj, by simp_all⟩
  · intro v
    rw [List.mem_append]
    constructor
    · rintro (hv | hv)
      · obtain ⟨m, hmk, hw⟩ := (inv.visited_iff v).mp hv
        exact ⟨m, Nat.le_succ_of_le hmk, hw⟩
      · have := (hfr v).mp (mem_frontierHeads.mp hv)
        exact ⟨k + 1, Nat.le_refl _, this.1⟩
    · rintro ⟨m, hm, hw⟩
      by_cases hvk : ∃ m0, m0 ≤ k ∧ Walk g s v m0
      · exact Or.inl ((inv.visited_iff v).mpr (by
          obtain ⟨m0, h1, h2⟩ := hvk
          exact ⟨m0, h1, h2⟩))
      · push_neg at hvk
        refine Or.inr (mem_frontierHeads.mpr ((hfr v).mpr ?_))
        have hmk : m = k + 1 := by
          rcases Nat.lt_or_ge m (k + 1) with hlt | hge
          · exact absurd hw (hvk m (Nat.lt_succ_iff.mp hlt))
          · omega
        subst hmk
        refine ⟨hw, ?_⟩
        intro m0 hm0
        by_contra hlt
        push_neg at hlt
        exact hvk m0 (Nat.lt_succ_iff.mp hlt) hm0
  · exact hfr

theorem bfsLoop_sound {g : TableGraph} {s t : String} :
    ∀ (fuel k : Nat) (visited : List String) (frontier : List (List String))
      (r : List String),
      BfsInv g s k visited frontier →
      bfsLoop g t fuel visited frontier = some r →
      ∃ d, MinWalk g s t d ∧ k ≤ d ∧ d < k + fuel ∧
        ∃ p, r = p.reverse ∧ RevPath g s p ∧ p.head? = some t ∧
          p.length = d + 1 := by
  intro fuel
  induction fuel with
  | zero =>
    intro k visited frontier r _ h
    simp [bfsLoop] at h
  | succ fuel ih =>
    intro k visited frontier r inv h
    rw [bfsLoop] at h
    cases hfind : frontier.find? (fun p => p.head? == some t) with
    | some p =>
      rw [hfind] at h
      have hp : p ∈ frontier := List.mem_of_find?_eq_some hfind
      have hh : p.head? = some t := by
        have := List.find?_some hfind
        simpa using this
      have hmin : MinWalk g s t k := (inv.frontier_iff t).mp ⟨p, hp, hh⟩
      obtain ⟨hrev, hlen⟩ := inv.path_ok p hp
      refine ⟨k, hmin, Nat.le_refl k, by omega, p, ?_, hrev, hh, hlen⟩
      simp only [Option.some.injEq] at h
      exact h.symm
    | none =>
      rw [hfind] at h
      obtain ⟨d, hmin, hk, hlt, hp⟩ := ih (k + 1) _ _ r (bfsInv_step inv) h
      exact ⟨d, hmin, by omega, by omega, hp⟩

theorem bfsLoop_complete {g : TableGraph} {s t : String} :
    ∀ (fuel k : Nat) (visited : List String) (frontier : List (List String))
      (d : Nat),
      BfsInv g s k visited frontier →
      MinWalk g s t d → k ≤ d → d < k + fuel →
      (bfsLoop g t fuel visited frontier).isSome := by
  intro fuel
  induction fuel with
  | zero =>
    intro k visited frontier d _ _ hk hlt
    omega
  | succ fuel ih =>
    intro k visited frontier d inv hmin hk hlt
    rw [bfsLoop]
    cases hfind : frontier.find? (fun p => p.head? == some t) with
    | some p => simp
    | none =>
      have hdk : d ≠ k := by
        intro he
        subst he
        obtain ⟨p, hp, hh⟩ := (inv.frontier_iff t).mpr hmin
        have : (frontier.find? (fun p => p.head? == some t)).isSome :=
          List.find?_isSome.mpr ⟨p, hp, by simp [hh]⟩
        rw [hfind] at this
        simp at this
      exact ih (k + 1) _ _ d (bfsInv_step inv) hmin (by omega) (by omega)

theorem find_none_iff (g : TableGraph) (A B : String) (maxHops : Nat)
    (hA : mem_graph g (upperStr A) = true)
    (hB : mem_graph g (upperStr B) = true) :
    (find_shortest_path g A B maxHops = none ↔
      ∀ n, Walk g (upperStr A) (upperStr B) n → maxHops < n) := by
  simp only [find_shortest_path, hA, hB, if_true]
  cases hb : bfsLoop g (upperStr B) (maxHops + 1) [upperStr A] [[upperStr A]] with
  | none =>
    constructor
    · intro _ n hw
      by_contra hle
      push_neg at hle
      obtain ⟨d, hd, hdmin⟩ := exists_min ⟨n, hw⟩
      have hmin : MinWalk g (upperStr A) (upperStr B) d := by
        refine ⟨hd, ?_⟩
        intro m hm
        by_contra hlt
        push_neg at hlt
        exact hdmin m hlt hm
      have hdn : d ≤ n := hmin.2 n hw
      have := bfsLoop_complete (maxHops + 1) 0 [upperStr A] [[upperStr A]] d
        (bfsInv_init g (upperStr A)) hmin (Nat.zero_le d) (by omega)
      rw [hb] at this
      simp at this
    · intro _
      rfl
  | some r =>
    constructor
    · intro h
      simp at h
    · intro hall
      exfalso
      obtain ⟨d, hmin, _, hlt, _⟩ := bfsLoop_sound (maxHops + 1) 0
        [upperStr A] [[upperStr A]] r (bfsInv_init g (upperStr A)) hb
      have := hall d hmin.1
      omega

def facts1 : List RelationshipFact :=
  [⟨"ORDERS", "ORDER_ITEMS", ["ID"], ["ORDER_ID"], none⟩,
   ⟨"CUSTOMERS", "ORDERS", ["ID"], ["CUSTOMER_ID"], none⟩]

def g1 : TableGraph := build_from_relationships ⟨[]⟩ facts1

/-- C4: for every pair of distinct tables A and B present in the graph and
every maxHops, find_shortest_path fails exactly when no path between them
exists or every path exceeds maxHops, and with maxHops = 0 it always
fails for distinct tables, even directly connected ones. -/
theorem findPath_noPath_iff (g : TableGraph) (A B : String) (maxHops : Nat)
    (hA : mem_graph g (upperStr A) = true)
    (hB : mem_graph g (upperStr B) = true)
    (hAB : upperStr A ≠ upperStr B) :
    (find_shortest_path g A B maxHops = none ↔
      (¬ ∃ n, Walk g (upperStr A) (upperStr B) n) ∨
      (∀ n, Walk g (upperStr A) (upperStr B) n → maxHops < n)) ∧
    find_shortest_path g A B 0 = none := by
  constructor
  · rw [find_none_iff g A B maxHops hA hB]
    constructor
    · intro h
      exact Or.inr h
    · rintro (h | h)
      · intro n hw
        exact absurd ⟨n, hw⟩ h
      · exact h
  · rw [find_none_iff g A B 0 hA hB]
    intro n hw
    cases n with
    | zero => exact absurd (walk_zero hw) hAB
    | succ m => omega

/-- Witness for C4 at Scenario 2: the two-fact order graph with
maxHops = 1 between ORDER_ITEMS and CUSTOMERS. -/
theorem findPath_noPath_iff_witness :
    (find_shortest_path g1 "ORDER_ITEMS" "CUSTOMERS" 1 = none ↔
      (¬ ∃ n, Walk g1 (upperStr "ORDER_ITEMS") (upperStr "CUSTOMERS") n) ∨
      (∀ n, Walk g1 (upperStr "ORDER_ITEMS") (upperStr "CUSTOMERS") n → 1 < n)) ∧
    find_shortest_path g1 "ORDER_ITEMS" "CUSTOMERS" 0 = none :=
  findPath_noPath_iff g1 "ORDER_ITEMS" "CUSTOMERS" 1 (by decide) (by decide)
    (by decide)

/-- C5: for every table X present in the graph and every maxHops,
find_shortest_path from X to itself succeeds with zero steps. -/
theorem findPath_self_zero (g : TableGraph) (X : String) (maxHops : Nat)
    (h : mem_graph g (upperStr X) = true) :
    find_shortest_path g X X maxHops =
      some ⟨upperStr X, upperStr X, [], 0⟩ := by
  simp only [find_shortest_path, h, if_true]
  rw [bfsLoop]
  rw [List.find?_cons_of_pos _ (by simp)]
  simp [mkSteps]

/-- Witness for C5: the ORDERS table of the two-fact scenario graph. -/
theorem findPath_self_zero_witness :
    find_shortest_path g1 "ORDERS" "ORDERS" 4 =
      some ⟨upperStr "ORDERS", upperStr "ORDERS", [], 0⟩ :=
  findPath_self_zero g1 "ORDERS" 4 (by decide)

theorem mkSteps_length (g : TableGraph) :
    ∀ (i : Nat) (l : List String), (mkSteps g i l).length = l.length - 1 := by
  intro i l
  induction l generalizing i with
  | nil => rfl
  | cons x rest ih =>
    cases rest with
    | nil => rfl
    | cons y r =>
      simp only [mkSteps, List.length_cons]
      rw [ih (i + 1)]
      simp

theorem mkSteps_map_stepnum (g : TableGraph) :
    ∀ (i : Nat) (l : List String),
      (mkSteps g i l).map JoinStep.step_number =
        List.range' (i + 1) (l.length - 1) := by
  intro i l
  induction l generalizing i with
  | nil => rfl
  | cons x rest ih =>
    cases rest with
    | nil => rfl
    | cons y r =>
      simp only [mkSteps, List.map_cons]
      rw [ih (i + 1)]
      simp [List.range']

theorem mkSteps_chain (g : TableGraph) :
    ∀ (i : Nat) (l : List String),
      List.Chain' (fun a b : JoinStep => a.to_table = b.from_table)
        (mkSteps g i l) := by
  intro i l
  induction l generalizing i with
  | nil => exact List.chain'_nil
  | cons x rest ih =>
    cases rest with
    | nil => exact List.chain'_nil
    | cons y r =>
      cases r with
      | nil => simp [mkSteps]
      | cons z r2 =>
        rw [mkSteps]
        refine List.chain'_cons'.mpr ⟨?_, ih (i + 1)⟩
        intro b hb
        rw [mkSteps] at hb
        simp only [List.head?_cons, Option.mem_def, Option.some.injEq] at hb
        rw [← hb]

theorem mkSteps_head_from (g : TableGraph) (i : Nat) (x y : String)
    (r : List String) :
    ((mkSteps g i (x :: y :: r)).head?).map JoinStep.from_table = some x := rfl

theorem getLast?_cons_ne {α : Type} (a : α) (l : List α) (h : l ≠ []) :
    (a :: l).getLast? = l.getLast? := by
  cases l with
  | nil => exact absurd rfl h
  | cons b t => exact List.getLast?_cons_cons

theorem mkSteps_last_to (g : TableGraph) :
    ∀ (i : Nat) (x y : String) (r : List String),
      ((mkSteps g i (x :: y :: r)).getLast?).map JoinStep.to_table =
        (y :: r).getLast? := by
  intro i x y r
  induction r generalizing i x y with
  | nil => rfl
  | cons z r2 ih =>
    have hne : mkSteps g (i + 1) (y :: z :: r2) ≠ [] := by
      rw [mkSteps]
      simp
    rw [mkSteps, getLast?_cons_ne _ _ hne, ih (i + 1) y z]
    rw [List.getLast?_cons_cons]

/-- C9: every JoinPath returned by find_shortest_path is a contiguous
chain: total_hops equals the number of steps, step numbers run 1, 2, ...,
each step's to_table equals the next step's from_table, and for a
non-empty step list the first from_table is the canonicalized source and
the last to_table the canonicalized target. -/
theorem joinPath_chain_invariants (g : TableGraph) (A B : String)
    (maxHops : Nat) (jp : JoinPath)
    (h : find_shortest_path g A B maxHops = some jp) :
    jp.source = upperStr A ∧ jp.target = upperStr B ∧
    jp.total_hops = jp.steps.length ∧
    jp.steps.map JoinStep.step_number = List.range' 1 jp.steps.length ∧
    List.Chain' (fun a b : JoinStep => a.to_table = b.from_table) jp.steps ∧
    (jp.steps ≠ [] →
      (jp.steps.head?).map JoinStep.from_table = some (upperStr A) ∧
      (jp.steps.getLast?).map JoinStep.to_table = some (upperStr B)) := by
  by_cases hA : mem_graph g (upperStr A)
  case neg => simp [find_shortest_path, hA] at h
  by_cases hB : mem_graph g (upperStr B)
  case neg => simp [find_shortest_path, hA, hB] at h
  simp only [find_shortest_path, hA, hB, if_true] at h
  cases hb : bfsLoop g (upperStr B) (maxHops + 1) [upperStr A] [[upperStr A]] with
  | none =>
    rw [hb] at h
    simp at h
  | some nodes =>
    rw [hb] at h
    simp only [Option.some.injEq] at h
    obtain ⟨d, _, _, _, p, hrev, hrp, hph, _⟩ := bfsLoop_sound (maxHops + 1) 0
      [upperStr A] [[upperStr A]] nodes (bfsInv_init g (upperStr A)) hb
    have hhead : nodes.head? = some (upperStr A) := by
      rw [hrev, List.head?_reverse]
      exact revpath_getLast hrp
    have hlast : nodes.getLast? = some (upperStr B) := by
      rw [hrev, List.getLast?_reverse]
      exact hph
    subst h
    refine ⟨rfl, rfl, rfl, ?_, mkSteps_chain g 0 nodes, ?_⟩
    · rw [mkSteps_length g 0 nodes]
      exact mkSteps_map_stepnum g 0 nodes
    · intro hne
      cases nodes with
      | nil => exact absurd rfl hne
      | cons x rest =>
        cases rest with
        | nil => exact absurd rfl hne
        | cons y r =>
          simp only [List.head?_cons, Option.some.injEq] at hhead
          subst hhead
          constructor
          · exact mkSteps_head_from g 0 _ y r
          · rw [mkSteps_last_to g 0 _ y r, ← List.getLast?_cons_cons]
            exact hlast

def jpScenario : JoinPath :=
  ⟨"ORDER_ITEMS", "CUSTOMERS",
   [⟨1, "ORDER_ITEMS", "ORDERS", "ORDER_ITEMS.ORDER_ID = ORDERS.ID", none⟩,
    ⟨2, "ORDERS", "CUSTOMERS", "ORDERS.CUSTOMER_ID = CUSTOMERS.ID", none⟩],
   2⟩

/-- Witness for C9 at Scenario 1: the concrete two-step path of the
two-fact scenario graph. -/
theorem joinPath_chain_invariants_witness :
    jpScenario.source = upperStr "ORDER_ITEMS" ∧
    jpScenario.target = upperStr "CUSTOMERS" ∧
    jpScenario.total_hops = jpScenario.steps.length ∧
    jpScenario.steps.map JoinStep.step_number =
      List.range' 1 jpScenario.steps.length ∧
    List.Chain' (fun a b : JoinStep => a.to_table = b.from_table)
      jpScenario.steps ∧
    (jpScenario.steps ≠ [] →
      (jpScenario.steps.head?).map JoinStep.from_table =
        some (upperStr "ORDER_ITEMS") ∧
      (jpScenario.steps.getLast?).map JoinStep.to_table =
        some (upperStr "CUSTOMERS")) :=
  joinPath_chain_invariants g1 "ORDER_ITEMS" "CUSTOMERS" 2 jpScenario
    (by decide)

/-- The invariant of the layered traversal after k rounds: visited holds
precisely the nodes within k hops and the frontier precisely the nodes at
shortest distance exactly k. -/
structure LayerInv (g : TableGraph) (s : String) (k : Nat)
    (visited frontier : List String) : Prop where
  visited_iff : ∀ v, v ∈ visited ↔ ∃ m ≤ k, Walk g s v m
  frontier_iff : ∀ v, v ∈ frontier ↔ MinWalk g s v k

theorem layerInv_init (g : TableGraph) (s : String) : LayerInv g s 0 [s] [s] := by
  constructor
  · intro v
    simp only [List.mem_singleton]
    constructor
    · intro hv
      exact ⟨0, Nat.le_refl 0, by rw [hv]; exact Walk.nil s⟩
    · rintro ⟨m, hm, hw⟩
      have hm0 : m = 0 := Nat.le_zero.mp hm
      subst hm0
      exact (walk_zero hw).symm
  · intro v
    simp only [List.mem_singleton]
    constructor
    · intro hv
      rw [hv]
      exact ⟨Walk.nil s, fun m _ => Nat.zero_le m⟩
    · rintro ⟨hw, _⟩
      exact (walk_zero hw).symm

theorem layer_next_mem {g : TableGraph} {visited frontier : List String}
    {w : String} :
    w ∈ ((frontier.flatMap (neighbors g)).filter
        (fun v => !visited.contains v)).dedup ↔
      (∃ x ∈ frontier, adjacent g x w) ∧ w ∉ visited := by
  rw [List.mem_dedup, List.mem_filter, List.mem_flatMap]
  constructor
  · rintro ⟨⟨x, hx, hw⟩, hnv⟩
    exact ⟨⟨x, hx, neighbors_adjacent.mp hw⟩, by simpa using hnv⟩
  · rintro ⟨⟨x, hx, hadj⟩, hnv⟩
    exact ⟨⟨x, hx, neighbors_adjacent.mpr hadj⟩, by simpa using hnv⟩

theorem layerInv_step {g : TableGraph} {s : String} {k : Nat}
    {visited frontier : List String}
    (inv : LayerInv g s k visited frontier) :
    LayerInv g s (k + 1)
      (visited ++ ((frontier.flatMap (neighbors g)).filter
        (fun v => !visited.contains v)).dedup)
      (((frontier.flatMap (neighbors g)).filter
        (fun v => !visited.contains v)).dedup) := by
  have hfr : ∀ w, w ∈ ((frontier.flatMap (neighbors g)).filter
      (fun v => !visited.contains v)).dedup ↔ MinWalk g s w (k + 1) := by
    intro w
    rw [layer_next_mem]
    constructor
    · rintro ⟨⟨x, hx, hadj⟩, hnv⟩
      have hmin : MinWalk g s x k := (inv.frontier_iff x).mp hx
      refine ⟨hmin.1.snoc hadj, ?_⟩
      intro m hm
      by_contra hlt
      push_neg at hlt
      exact hnv ((inv.visited_iff w).mpr ⟨m, Nat.lt_succ_iff.mp hlt, hm⟩)
    · rintro ⟨hw, hmin⟩
      obtain ⟨u, hu, hadj⟩ := walk_succ_decomp hw
      have humin : MinWalk g s u k := by
        refine ⟨hu, ?_⟩
        intro m hm
        by_contra hlt
        push_neg at hlt
        have := hmin (m + 1) (hm.snoc hadj)
        omega
      refine ⟨⟨u, (inv.frontier_iff u).mpr humin, hadj⟩, ?_⟩
      intro hmem
      obtain ⟨m, hmk, hwm⟩ := (inv.visited_iff w).mp hmem
      have := hmin m hwm
      omega
  constructor
  · intro v
    rw [List.mem_append]
    constructor
    · rintro (hv | hv)
      · obtain ⟨m, hmk, hw⟩ := (inv.visited_iff v).mp hv
        exact ⟨m, Nat.le_succ_of_le hmk, hw⟩
      · exact ⟨k + 1, Nat.le_refl _, ((hfr v).mp hv).1⟩
    · rintro ⟨m, hm, hw⟩
      by_cases hvk : ∃ m0, m0 ≤ k ∧ Walk g s v m0
      · refine Or.inl ((inv.visited_iff v).mpr ?_)
        obtain ⟨m0, h1, h2⟩ := hvk
        exact ⟨m0, h1, h2⟩
      · push_neg at hvk
        refine Or.inr ((hfr v).mpr ?_)
        have hmk : m = k + 1 := by
          rcases Nat.lt_or_ge m (k + 1) with hlt | hge
          · exact absurd hw (hvk m (Nat.lt_succ_iff.mp hlt))
          · omega
        subst hmk
        refine ⟨hw, ?_⟩
        intro m0 hm0
        by_contra hlt
        push_neg at hlt
        exact hvk m0 (Nat.lt_succ_iff.mp hlt) hm0
  · exact hfr

theorem bfsLayers_sound {g : TableGraph} {s : String} {cutoff : Nat} :
    ∀ (fuel k : Nat) (visited frontier : List String) (v : String) (dd : Nat),
      LayerInv g s k visited frontier → k ≤ cutoff →
      (v, dd) ∈ bfsLayers g cutoff fuel visited frontier k →
      MinWalk g s v dd ∧ dd ≤ cutoff := by
  intro fuel
  induction fuel with
  | zero =>
    intro k visited frontier v dd _ _ h
    simp [bfsLayers] at h
  | succ fuel ih =>
    intro k visited frontier v dd inv hk h
    rw [bfsLayers] at h
    by_cases hcut : k = cutoff
    · rw [if_pos hcut] at h
      rw [List.mem_map] at h
      obtain ⟨w, hw, he⟩ := h
      injection he with h1 h2
      subst h1
      subst h2
      exact ⟨(inv.frontier_iff w).mp hw, hcut.le⟩
    · rw [if_neg hcut] at h
      rw [List.mem_append] at h
      rcases h with h | h
      · rw [List.mem_map] at h
        obtain ⟨w, hw, he⟩ := h
        injection he with h1 h2
        subst h1
        subst h2
        exact ⟨(inv.frontier_iff w).mp hw, hk⟩
      · exact ih (k + 1) _ _ v dd (layerInv_step inv) (by omega) h

theorem strLE_iff (a b : String) : strLE a b = true ↔ a ≤ b := by
  simp only [strLE, strLT, Bool.not_eq_true', decide_eq_false_iff_not]
  rw [String.le_iff_toList_le, ← not_lt]
  exact Iff.rfl

theorem relLE_iff (x y : String × Nat) :
    relLE x y = true ↔ x.2 < y.2 ∨ (x.2 = y.2 ∧ x.1 ≤ y.1) := by
  simp only [relLE, Bool.or_eq_true, Bool.and_eq_true, decide_eq_true_eq,
    strLE_iff]

theorem relLE_trans (a b c : String × Nat) :
    relLE a b → relLE b c → relLE a c := by
  intro hab hbc
  rw [relLE_iff] at hab hbc ⊢
  rcases hab with h1 | ⟨h1, h1s⟩ <;> rcases hbc with h2 | ⟨h2, h2s⟩
  · exact Or.inl (by omega)
  · exact Or.inl (by omega)
  · exact Or.inl (by omega)
  · exact Or.inr ⟨by omega, le_trans h1s h2s⟩

theorem relLE_total (a b : String × Nat) : (relLE a b || relLE b a) = true := by
  rw [Bool.or_eq_true, relLE_iff, relLE_iff]
  rcases lt_trichotomy a.2 b.2 with h | h | h
  · exact Or.inl (Or.inl h)
  · rcases le_total a.1 b.1 with h2 | h2
    · exact Or.inl (Or.inr ⟨h, h2⟩)
    · exact Or.inr (Or.inr ⟨h.symm, h2⟩)
  · exact Or.inr (Or.inl h)

theorem relLE_total_of_not {a b : String × Nat} (h : ¬ relLE a b = true) :
    relLE b a = true := by
  have := relLE_total a b
  simp only [Bool.or_eq_true] at this
  tauto

theorem mem_insertLE {x a : String × Nat} :
    ∀ {l : List (String × Nat)}, a ∈ insertLE x l ↔ a = x ∨ a ∈ l := by
  intro l
  induction l with
  | nil => simp [insertLE]
  | cons y t ih =>
    by_cases h : relLE x y
    · simp [insertLE, h]
    · rw [insertLE, if_neg h]
      simp only [List.mem_cons, ih]
      tauto

theorem mem_sortLE {a : String × Nat} :
    ∀ {l : List (String × Nat)}, a ∈ sortLE l ↔ a ∈ l := by
  intro l
  induction l with
  | nil => simp [sortLE]
  | cons x t ih => simp [sortLE, mem_insertLE, ih]

theorem pairwise_insertLE {x : String × Nat} :
    ∀ {l : List (String × Nat)},
      l.Pairwise (fun a b => relLE a b = true) →
      (insertLE x l).Pairwise (fun a b => relLE a b = true) := by
  intro l
  induction l with
  | nil =>
    intro _
    simp [insertLE]
  | cons y t ih =>
    intro hp
    rw [List.pairwise_cons] at hp
    by_cases h : relLE x y = true
    · rw [insertLE, if_pos h]
      rw [List.pairwise_cons]
      constructor
      · intro b hb
        rcases List.mem_cons.mp hb with rfl | hb
        · exact h
        · exact relLE_trans x y b h (hp.1 b hb)
      · rw [List.pairwise_cons]
        exact hp
    · rw [insertLE, if_neg h]
      rw [List.pairwise_cons]
      constructor
      · intro b hb
        rcases mem_insertLE.mp hb with rfl | hb
        · exact relLE_total_of_not h
        · exact hp.1 b hb
      · exact ih hp.2

theorem sortLE_sorted :
    ∀ (l : List (String × Nat)),
      (sortLE l).Pairwise (fun a b => relLE a b = true) := by
  intro l
  induction l with
  | nil => exact List.Pairwise.nil
  | cons x t ih => exact pairwise_insertLE ih

/-- C8: for a table present in the graph, get_related_tables excludes the
source table, contains only tables together with their shortest distance,
all within max_hops, and is sorted ascending by (distance, name) with the
lexical tie-break on the name at equal distance. -/
theorem related_tables_sound_sorted (g : TableGraph) (table : String)
    (maxHops : Nat) (h : mem_graph g (upperStr table) = true) :
    (∀ p ∈ get_related_tables g table maxHops,
      p.1 ≠ upperStr table ∧ MinWalk g (upperStr table) p.1 p.2 ∧
        p.2 ≤ maxHops) ∧
    (get_related_tables g table maxHops).Pairwise
      (fun x y => x.2 < y.2 ∨ (x.2 = y.2 ∧ x.1 ≤ y.1)) := by
  constructor
  · intro p hp
    simp only [get_related_tables, h, if_true] at hp
    rw [mem_sortLE, List.mem_filter] at hp
    obtain ⟨hmem, hne⟩ := hp
    obtain ⟨v, dd⟩ := p
    have hso := bfsLayers_sound (maxHops + 1) 0 [upperStr table] [upperStr table]
      v dd (layerInv_init g (upperStr table)) (Nat.zero_le maxHops) hmem
    exact ⟨by simpa using hne, hso.1, hso.2⟩
  · simp only [get_related_tables, h, if_true]
    have hs := sortLE_sorted
      ((bfsLayers g maxHops (maxHops + 1) [upperStr table] [upperStr table]
        0).filter (fun p => !(p.1 == upperStr table)))
    refine hs.imp ?_
    intro a b hab
    exact (relLE_iff a b).mp hab

/-- Witness for C8 at Scenario 4: related tables of ORDERS within one hop
in the two-fact scenario graph. -/
theorem related_tables_sound_sorted_witness :
    (∀ p ∈ get_related_tables g1 "ORDERS" 1,
      p.1 ≠ upperStr "ORDERS" ∧ MinWalk g1 (upperStr "ORDERS") p.1 p.2 ∧
        p.2 ≤ 1) ∧
    (get_related_tables g1 "ORDERS" 1).Pairwise
      (fun x y => x.2 < y.2 ∨ (x.2 = y.2 ∧ x.1 ≤ y.1)) :=
  related_tables_sound_sorted g1 "ORDERS" 1 (by decide)

/-- C7 counterexample: the table LONELY is absent from the scenario graph,
yet get_related_tables returns the empty list as a normal value instead of
failing with a not-found error. -/
theorem related_tables_absent_counterexample :
    mem_graph g1 "LONELY" = false ∧ get_related_tables g1 "LONELY" 2 = [] := by
  constructor
  · decide
  · decide

/-- C7 amended: for a table absent from the graph, get_related_tables
returns the empty list (it has no failure outcome). -/
theorem related_tables_absent_empty (g : TableGraph) (table : String)
    (maxHops : Nat) (h : mem_graph g (upperStr table) = false) :
    get_related_tables g table maxHops = [] := by
  simp [get_related_tables, h]

/-- Witness for the amended C7: LONELY in the scenario graph. -/
theorem related_tables_absent_empty_witness :
    get_related_tables g1 "LONELY" 2 = [] :=
  related_tables_absent_empty g1 "LONELY" 2 (by decide)

/-- C10: when a traversed edge stores an empty parent-column or
child-column list (so the positional pairing is empty), the rendered join
condition is the fabricated fallback FROM_TABLE.id = TO_TABLE.id built
from the traversal endpoints and the literal column name id, not an
error. -/
theorem fallback_join_condition (ft tt : String) (dat : EdgeData)
    (h : dat.parent_columns = [] ∨ dat.child_columns = []) :
    format_join_condition ft tt dat = ft ++ ".id = " ++ tt ++ ".id" := by
  unfold format_join_condition
  rcases h with h | h <;> simp [h]

/-- Witness for C10: an edge with an empty parent-column list. -/
theorem fallback_join_condition_witness :
    format_join_condition "A" "B" ⟨[], ["X"], none, "A", "B"⟩ =
      "A" ++ ".id = " ++ "B" ++ ".id" :=
  fallback_join_condition "A" "B" ⟨[], ["X"], none, "A", "B"⟩ (Or.inl rfl)

theorem find?_map_replace (P : GEdge → Bool) (dat : EdgeData)
    (hpres : ∀ e, P { e with dat := dat } = P e) :
    ∀ (l : List GEdge), l.any P = true →
      ((l.map (fun e => if P e then { e with dat := dat } else e)).find? P).map
        GEdge.dat = some dat := by
  intro l
  induction l with
  | nil => intro h; simp at h
  | cons e t ih =>
    intro h
    rw [List.map_cons]
    by_cases hP : P e = true
    · rw [if_pos hP]
      rw [List.find?_cons_of_pos _ (by rw [hpres]; exact hP)]
      rfl
    · rw [if_neg hP]
      rw [List.find?_cons_of_neg _ (by simpa using hP)]
      apply ih
      simp only [List.any_cons, Bool.or_eq_true] at h
      rcases h with h | h
      · exact absurd h hP
      · exact h

theorem find?_none_of_any_false (P : GEdge → Bool) :
    ∀ (l : List GEdge), l.any P = false → l.find? P = none := by
  intro l
  induction l with
  | nil => intro _; rfl
  | cons e t ih =>
    intro h
    simp only [List.any_cons, Bool.or_eq_false_iff] at h
    rw [List.find?_cons_of_neg _ (by simp [h.1])]
    exact ih h.2

theorem find?_append_left_none (P : GEdge → Bool) :
    ∀ (l₁ l₂ : List GEdge), l₁.find? P = none →
      (l₁ ++ l₂).find? P = l₂.find? P := by
  intro l₁ l₂
  induction l₁ with
  | nil => intro _; rfl
  | cons e t ih =>
    intro h
    rw [List.cons_append]
    by_cases hP : P e = true
    · rw [List.find?_cons_of_pos _ hP] at h
      simp at h
    · rw [List.find?_cons_of_neg _ (by simpa using hP)] at h ⊢
      exact ih h

/-- C3 counterexample: add_relationship with an empty parent-column list
succeeds and stores the edge, rather than failing with no edge stored. -/
theorem add_relationship_no_validation_counterexample :
    add_relationship ⟨[]⟩ "P" "C" [] ["X"] none =
      ⟨[⟨"P", "C", ⟨[], ["X"], none, "P", "C"⟩⟩]⟩ ∧
    (add_relationship ⟨[]⟩ "P" "C" [] ["X"] none).edges ≠ [] := by
  constructor
  · decide
  · decide

/-- C3 amended: add_relationship performs no validation of the column
lists; even when their lengths differ or one is empty it succeeds, and
the stored edge for the pair carries exactly the supplied attributes. -/
theorem add_relationship_no_validation (g : TableGraph)
    (parent child : String) (pcols ccols : List String)
    (cname : Option String)
    (_h : pcols.length ≠ ccols.length ∨ pcols = [] ∨ ccols = []) :
    getEdgeData (add_relationship g parent child pcols ccols cname)
        (upperStr parent) (upperStr child) =
      some ⟨pcols, ccols, cname, upperStr parent, upperStr child⟩ := by
  unfold add_relationship getEdgeData
  by_cases hany :
      g.edges.any (edgeMatch (upperStr parent) (upperStr child)) = true
  · rw [if_pos hany]
    exact find?_map_replace _ _ (fun e => rfl) g.edges hany
  · rw [if_neg hany]
    have hnone : g.edges.find? (edgeMatch (upperStr parent) (upperStr child)) =
        none :=
      find?_none_of_any_false _ g.edges (by simpa using hany)
    rw [find?_append_left_none _ g.edges _ hnone]
    rw [List.find?_cons_of_pos _ (by simp [edgeMatch])]
    rfl

/-- Witness for the amended C3: an empty parent-column list on an empty
graph. -/
theorem add_relationship_no_validation_witness :
    getEdgeData (add_relationship ⟨[]⟩ "P" "C" [] ["X"] none)
        (upperStr "P") (upperStr "C") =
      some ⟨[], ["X"], none, upperStr "P", upperStr "C"⟩ :=
  add_relationship_no_validation ⟨[]⟩ "P" "C" [] ["X"] none
    (Or.inr (Or.inl rfl))

/-- C1 counterexample: in Scenario 1 the code renders the join conditions
with the traversal's from-table side first, not the parent-first strings
the claim states. -/
theorem join_condition_render_counterexample :
    (find_shortest_path g1 "ORDER_ITEMS" "CUSTOMERS" 2).map
        (fun p => p.steps.map JoinStep.join_condition) =
      some ["ORDER_ITEMS.ORDER_ID = ORDERS.ID",
            "ORDERS.CUSTOMER_ID = CUSTOMERS.ID"] ∧
    (find_shortest_path g1 "ORDER_ITEMS" "CUSTOMERS" 2).map
        (fun p => p.steps.map JoinStep.join_condition) ≠
      some ["ORDERS.ID = ORDER_ITEMS.ORDER_ID",
            "CUSTOMERS.ID = ORDERS.CUSTOMER_ID"] := by
  constructor
  · decide
  · decide

/-- C1 amended: for every traversed edge with a non-empty column pairing,
the join condition is the conjunction of equalities over the edge's
stored parent/child column pairing, the same pairing in both traversal
directions, with each equality rendered from-side first: traversing from
the stored parent gives parent.pcol = child.ccol per pair, traversing
from any other endpoint gives child.ccol = parent.pcol per pair; and
Scenario 1 resolves to the two expected steps ORDER_ITEMS to ORDERS to
CUSTOMERS with conditions ORDER_ITEMS.ORDER_ID = ORDERS.ID, then
ORDERS.CUSTOMER_ID = CUSTOMERS.ID. -/
theorem join_condition_render_rule :
    (∀ (tt : String) (dat : EdgeData),
      dat.parent_columns.zip dat.child_columns ≠ [] →
      format_join_condition dat.parent tt dat =
        String.intercalate " AND "
          ((dat.parent_columns.zip dat.child_columns).map (fun pc =>
            dat.parent ++ "." ++ pc.1 ++ " = " ++ dat.child ++ "." ++ pc.2))) ∧
    (∀ (ft tt : String) (dat : EdgeData),
      ft ≠ dat.parent →
      dat.parent_columns.zip dat.child_columns ≠ [] →
      format_join_condition ft tt dat =
        String.intercalate " AND "
          ((dat.parent_columns.zip dat.child_columns).map (fun pc =>
            dat.child ++ "." ++ pc.2 ++ " = " ++ dat.parent ++ "." ++ pc.1))) ∧
    find_shortest_path g1 "ORDER_ITEMS" "CUSTOMERS" 2 = some jpScenario := by
  refine ⟨?_, ?_, by decide⟩
  · intro tt dat hz
    unfold format_join_condition
    simp only [beq_self_eq_true, if_true]
    rw [if_neg]
    intro hemp
    rw [List.isEmpty_eq_true, List.map_eq_nil_iff] at hemp
    exact hz hemp
  · intro ft tt dat hne hz
    unfold format_join_condition
    have hbeq : (ft == dat.parent) = false := beq_eq_false_iff_ne.mpr hne
    simp only [hbeq, Bool.false_eq_true, if_false]
    rw [if_neg]
    intro hemp
    rw [List.isEmpty_eq_true, List.map_eq_nil_iff] at hemp
    exact hz hemp

/-- Witness for the amended C1: the CUSTOMERS/ORDERS edge rendered in both
traversal directions. -/
theorem join_condition_render_rule_witness :
    format_join_condition "CUSTOMERS" "ORDERS"
        ⟨["ID"], ["CUSTOMER_ID"], none, "CUSTOMERS", "ORDERS"⟩ =
      String.intercalate " AND "
        (((["ID"] : List String).zip ["CUSTOMER_ID"]).map (fun pc =>
          "CUSTOMERS" ++ "." ++ pc.1 ++ " = " ++ "ORDERS" ++ "." ++ pc.2)) ∧
    format_join_condition "ORDERS" "CUSTOMERS"
        ⟨["ID"], ["CUSTOMER_ID"], none, "CUSTOMERS", "ORDERS"⟩ =
      String.intercalate " AND "
        (((["ID"] : List String).zip ["CUSTOMER_ID"]).map (fun pc =>
          "ORDERS" ++ "." ++ pc.2 ++ " = " ++ "CUSTOMERS" ++ "." ++ pc.1)) :=
  ⟨join_condition_render_rule.1 "ORDERS"
      ⟨["ID"], ["CUSTOMER_ID"], none, "CUSTOMERS", "ORDERS"⟩ (by decide),
   join_condition_render_rule.2.1 "ORDERS" "CUSTOMERS"
      ⟨["ID"], ["CUSTOMER_ID"], none, "CUSTOMERS", "ORDERS"⟩ (by decide)
      (by decide)⟩

def cacheScenario : List String := ["LONELY", "ORDERS", "CUSTOMERS", "ORDER_ITEMS"]

/-- C6 counterexample: LONELY sits in the table cache but is absent from
the graph; find_join_path reports the no-path diagnostic for it, not a
not-found error. -/
theorem find_join_path_absent_graph_counterexample :
    mem_graph g1 "LONELY" = false ∧
    find_join_path cacheScenario g1 "LONELY" "ORDERS" 4 =
      FindPathResult.noPath
        "No join path found between 'LONELY' and 'ORDERS' within 4 hops."
        [] ["CUSTOMERS", "ORDER_ITEMS"] := by
  constructor
  · decide
  · decide

/-- C6 amended: find_join_path fails with a not-found error that names the
offending table, distinguishing source from target, but keyed on cache
membership rather than graph membership: a source absent from the cache
yields the source error, an in-cache source with an absent target yields
the target error. -/
theorem find_join_path_not_found (cache : List String) (g : TableGraph)
    (s t : String) (maxHops : Nat) :
    (cache.contains (upperStr s) = false →
      find_join_path cache g s t maxHops =
        FindPathResult.notFound ("Table '" ++ s ++ "' not found.")) ∧
    (cache.contains (upperStr s) = true →
      cache.contains (upperStr t) = false →
      find_join_path cache g s t maxHops =
        FindPathResult.notFound ("Table '" ++ t ++ "' not found.")) := by
  constructor
  · intro h
    have hm : upperStr s ∉ cache := by simpa using h
    simp [find_join_path, hm]
  · intro h1 h2
    have hm1 : upperStr s ∈ cache := by simpa using h1
    have hm2 : upperStr t ∉ cache := by simpa using h2
    simp [find_join_path, hm1, hm2]

/-- Witness for the amended C6: a missing source and a missing target
against a one-table cache. -/
theorem find_join_path_not_found_witness :
    find_join_path ["ORDERS"] g1 "NOPE" "ORDERS" 4 =
      FindPathResult.notFound ("Table '" ++ "NOPE" ++ "' not found.") ∧
    find_join_path ["ORDERS"] g1 "ORDERS" "NOPE" 4 =
      FindPathResult.notFound ("Table '" ++ "NOPE" ++ "' not found.") :=
  ⟨(find_join_path_not_found ["ORDERS"] g1 "NOPE" "ORDERS" 4).1 (by decide),
   (find_join_path_not_found ["ORDERS"] g1 "ORDERS" "NOPE" 4).2 (by decide)
     (by decide)⟩

theorem lookup_append_enum (l₁ l₂ : List (String × EnumInfo)) (k : String) :
    (l₁ ++ l₂).lookup k = ((l₁.lookup k).or (l₂.lookup k)) := by
  induction l₁ with
  | nil => simp [List.lookup]
  | cons p t ih =>
    obtain ⟨a, b⟩ := p
    cases hbeq : (k == a) with
    | true => simp [List.lookup, hbeq]
    | false => simp [List.lookup, hbeq, ih]

theorem lookup_map_set (k : String) (v : EnumInfo) :
    ∀ (d : List (String × EnumInfo)), d.any (fun p => p.1 == k) = true →
      (d.map (fun p => if p.1 == k then (p.1, v) else p)).lookup k = some v := by
  intro d
  induction d with
  | nil => intro h; simp at h
  | cons p t ih =>
    intro h
    obtain ⟨a, b⟩ := p
    by_cases hp : (a == k) = true
    · have ha : a = k := by simpa using hp
      rw [List.map_cons, if_pos hp]
      simp [List.lookup, ha]
    · rw [List.map_cons, if_neg hp]
      have hk : (k == a) = false := by
        have hne : a ≠ k := by simpa using hp
        simpa using hne.symm
      simp only [List.lookup, hk]
      apply ih
      simp only [List.any_cons, Bool.or_eq_true] at h
      rcases h with h | h
      · exact absurd h hp
      · exact h

theorem lookup_map_set_other (k k' : String) (v : EnumInfo) (hne : k' ≠ k) :
    ∀ (d : List (String × EnumInfo)),
      (d.map (fun p => if p.1 == k then (p.1, v) else p)).lookup k' =
        d.lookup k' := by
  intro d
  induction d with
  | nil => rfl
  | cons p t ih =>
    obtain ⟨a, b⟩ := p
    by_cases hp : (a == k) = true
    · have ha : a = k := by simpa using hp
      have hk : (k' == a) = false := by
        subst ha
        simpa using hne
      rw [List.map_cons, if_pos hp]
      simp only [List.lookup, hk]
      exact ih
    · rw [List.map_cons, if_neg hp]
      cases hbeq : (k' == a) with
      | true => simp [List.lookup, hbeq]
      | false =>
        simp only [List.lookup, hbeq]
        exact ih

theorem lookup_none_of_any_false (k : String) :
    ∀ (d : List (String × EnumInfo)), d.any (fun p => p.1 == k) = false →
      d.lookup k = none := by
  intro d
  induction d with
  | nil => intro _; rfl
  | cons p t ih =>
    intro h
    obtain ⟨a, b⟩ := p
    simp only [List.any_cons, Bool.or_eq_false_iff] at h
    have hk : (k == a) = false := by
      have hne : a ≠ k := by simpa using h.1
      simpa using hne.symm
    simp only [List.lookup, hk]
    exact ih h.2

theorem lookup_dictSet_self (d : List (String × EnumInfo)) (k : String)
    (v : EnumInfo) : (dictSet d k v).lookup k = some v := by
  unfold dictSet
  by_cases hany : d.any (fun p => p.1 == k) = true
  · rw [if_pos hany]
    exact lookup_map_set k v d hany
  · rw [if_neg hany]
    rw [lookup_append_enum]
    rw [lookup_none_of_any_false k d (Bool.eq_false_iff.mpr hany)]
    simp [List.lookup]

theorem lookup_dictSet_other (d : List (String × EnumInfo)) (k k' : String)
    (v : EnumInfo) (hne : k' ≠ k) :
    (dictSet d k v).lookup k' = d.lookup k' := by
  unfold dictSet
  by_cases hany : d.any (fun p => p.1 == k) = true
  · rw [if_pos hany]
    exact lookup_map_set_other k k' v hne d
  · rw [if_neg hany]
    rw [lookup_append_enum]
    have h1 : ([(k, v)].lookup k') = none := by
      have hk : (k' == k) = false := by simpa using hne
      simp [List.lookup, hk]
    rw [h1]
    simp

theorem mergeManual_lookup_self (d : List (String × EnumInfo)) (m : EnumInfo) :
    (mergeManual d m).lookup (enumKey m) =
      match d.lookup (enumKey m) with
      | some e => some (annotateValues e m)
      | none => some m := by
  unfold mergeManual
  cases hd : d.lookup (enumKey m) with
  | some e => simp [lookup_dictSet_self]
  | none =>
    rw [lookup_append_enum, hd]
    simp [List.lookup]

theorem mergeManual_lookup_other (d : List (String × EnumInfo)) (m : EnumInfo)
    (k : String) (hne : k ≠ enumKey m) :
    (mergeManual d m).lookup k = d.lookup k := by
  unfold mergeManual
  cases hd : d.lookup (enumKey m) with
  | some e => exact lookup_dictSet_other d (enumKey m) k _ hne
  | none =>
    rw [lookup_append_enum]
    have h1 : ([(enumKey m, m)].lookup k) = none := by
      have hk : (k == enumKey m) = false := by simpa using hne
      simp [List.lookup, hk]
    rw [h1]
    simp

/-- The effect of the manual-override loop on one key, as a fold over the
manual entries addressed to that key: an existing domain is annotated by
each of them in order, a missing one is created by the first and annotated
by the rest. -/
def mergeOutcome (ms : List EnumInfo) (o : Option EnumInfo) : Option EnumInfo :=
  ms.foldl (fun acc m =>
    match acc with
    | some e => some (annotateValues e m)
    | none => some m) o

theorem foldl_mergeManual_lookup :
    ∀ (ms : List EnumInfo) (d : List (String × EnumInfo)) (k : String),
      (ms.foldl mergeManual d).lookup k =
        mergeOutcome (ms.filter (fun m => enumKey m == k)) (d.lookup k) := by
  intro ms
  induction ms with
  | nil => intro d k; rfl
  | cons m ms ih =>
    intro d k
    rw [List.foldl_cons, List.filter_cons]
    by_cases hk : (enumKey m == k) = true
    · rw [if_pos hk]
      have hk2 : enumKey m = k := by simpa using hk
      subst hk2
      rw [ih, mergeManual_lookup_self]
      cases hd : d.lookup (enumKey m) <;> rfl
    · rw [if_neg hk]
      have hne : k ≠ enumKey m := by
        have : enumKey m ≠ k := by simpa using hk
        exact this.symm
      rw [ih, mergeManual_lookup_other d m k hne]

theorem annotate_codes (e m : EnumInfo) :
    (annotateValues e m).values.map EnumValue.code =
      e.values.map EnumValue.code ∧
    (annotateValues e m).source = e.source := by
  constructor
  · show (e.values.map _).map EnumValue.code = _
    rw [List.map_map]
    apply List.map_congr_left
    intro v _
    cases hm : manualMeaning m v.code <;> simp [hm]
  · rfl

theorem mergeOutcome_some_codes :
    ∀ (ms : List EnumInfo) (e : EnumInfo),
      ∃ e2, mergeOutcome ms (some e) = some e2 ∧
        e2.values.map EnumValue.code = e.values.map EnumValue.code ∧
        e2.source = e.source := by
  intro ms
  induction ms with
  | nil => intro e; exact ⟨e, rfl, rfl, rfl⟩
  | cons m ms ih =>
    intro e
    obtain ⟨e2, h1, h2, h3⟩ := ih (annotateValues e m)
    refine ⟨e2, h1, ?_, ?_⟩
    · rw [h2, (annotate_codes e m).1]
    · rw [h3, (annotate_codes e m).2]

/-- C2: in the extract_all merge, a key that already has a derived domain
keeps exactly its derived code list and source through the whole manual
pass (manual entries only annotate meanings of codes already present, and
a manual code outside the derived code set is dropped, never added); a
key with no derived domain whose single manual entry addresses it gets
that entry verbatim as a new domain; and each annotation step maps every
stored value either to itself or to itself with the meaning the manual
entry supplies for its code. -/
theorem enum_merge_semantics (derived manual : List EnumInfo) (k : String) :
    (∀ e, (derivedDict derived).lookup k = some e →
      ∃ e2, (extract_allDict derived manual).lookup k = some e2 ∧
        e2.values.map EnumValue.code = e.values.map EnumValue.code ∧
        e2.source = e.source) ∧
    ((derivedDict derived).lookup k = none →
      ∀ m, manual.filter (fun x => enumKey x == k) = [m] →
        (extract_allDict derived manual).lookup k = some m) ∧
    (∀ (e m : EnumInfo) (v : EnumValue), v ∈ (annotateValues e m).values →
      v ∈ e.values ∨ ∃ w ∈ e.values, ∃ mn, manualMeaning m w.code = some mn ∧
        v = { w with meaning := mn }) := by
  refine ⟨?_, ?_, ?_⟩
  · intro e he
    unfold extract_allDict
    rw [foldl_mergeManual_lookup, he]
    exact mergeOutcome_some_codes _ e
  · intro hnone m hm
    unfold extract_allDict
    rw [foldl_mergeManual_lookup, hnone, hm]
    rfl
  · intro e m v hv
    have hv2 : v ∈ e.values.map (fun w =>
        match manualMeaning m w.code with
        | some mn => { w with meaning := mn }
        | none => w) := hv
    rw [List.mem_map] at hv2
    obtain ⟨w, hw, he⟩ := hv2
    cases hm : manualMeaning m w.code with
    | none =>
      left
      have hvw : v = w := by
        rw [← he, hm]
      rw [hvw]
      exact hw
    | some mn =>
      right
      refine ⟨w, hw, mn, hm, ?_⟩
      rw [← he, hm]

def derivedScenario : List EnumInfo :=
  [⟨"ACCOUNTS", "STATUS", [⟨"ACTIVE", none⟩, ⟨"INACTIVE", none⟩],
    "check_constraint"⟩]

def manualScenario : List EnumInfo :=
  [⟨"ACCOUNTS", "STATUS",
    [⟨"ACTIVE", some "Account is active"⟩, ⟨"PENDING", some "Pending"⟩],
    "manual"⟩,
   ⟨"RULES", "KIND", [⟨"A", some "alpha"⟩], "manual"⟩]

/-- Witness for C2 at Scenario 3: the ACCOUNTS.STATUS derived domain keeps
its codes and source under the manual pass (the PENDING override is
dropped), and the RULES.KIND manual entry creates its domain verbatim. -/
theorem enum_merge_semantics_witness :
    (∃ e2, (extract_allDict derivedScenario manualScenario).lookup
        "ACCOUNTS.STATUS" = some e2 ∧
      e2.values.map EnumValue.code =
        (⟨"ACCOUNTS", "STATUS", [⟨"ACTIVE", none⟩, ⟨"INACTIVE", none⟩],
          "check_constraint"⟩ : EnumInfo).values.map EnumValue.code ∧
      e2.source =
        (⟨"ACCOUNTS", "STATUS", [⟨"ACTIVE", none⟩, ⟨"INACTIVE", none⟩],
          "check_constraint"⟩ : EnumInfo).source) ∧
    (extract_allDict derivedScenario manualScenario).lookup "RULES.KIND" =
      some ⟨"RULES", "KIND", [⟨"A", some "alpha"⟩], "manual"⟩ :=
  ⟨(enum_merge_semantics derivedScenario manualScenario "ACCOUNTS.STATUS").1
      ⟨"ACCOUNTS", "STATUS", [⟨"ACTIVE", none⟩, ⟨"INACTIVE", none⟩],
        "check_constraint"⟩ (by decide),
   (enum_merge_semantics derivedScenario manualScenario "RULES.KIND").2.1
      (by decide) ⟨"RULES", "KIND", [⟨"A", some "alpha"⟩], "manual"⟩
      (by decide)⟩
